import Mathlib

/-!
# Verification of the registry-resolver weight-propagation engine

Shallow embedding of `computePackageWeight` from flossbank/registry-resolver
(the TypeScript `RegistryResolver.computePackageWeight`, which pre-resolves
top-level specifiers, memoises dependency lookups in `resolvedPackages`,
filters no-comp dependencies with empty grand-dependency lists, and splits
inherited weight among a package and its filtered dependencies, with an
epsilon cutoff).  Weights are modelled as rationals; the concurrent
`Promise.all` batch is linearised in list order (all shared-state updates in
a batch are additive map updates and idempotent cache inserts, so the
linearisation computes the same weight map); the work queue is the JS array
used as a stack (`push`/`pop` at the end); fallible spec resolution
(`getSpec` throwing) is modelled with `Option`.  A fuel parameter makes the
possibly-diverging `while` loop total; ghost `Disc` accounting records mass
that leaves the traversal without being recorded in the weight map.
-/

/-- A resolved package specifier: a bare `name` (the package identity used
for the weight map and the no-comp set) and a canonical string identity
`key` (the result of `toString()`, used as the memoisation key). -/
structure DepSpec where
  name : String
  key : String
deriving DecidableEq, Repr

/-- The capability set the engine consumes from a registry client:
`getSpec` resolves a raw specifier string (`none` models a thrown
exception), `getDependencies` returns the immediate dependencies of a
resolved spec. -/
structure Registry where
  getSpec : String → Option DepSpec
  getDependencies : DepSpec → List DepSpec

/-- A pending traversal unit (`WorkItem`): the packages still to process
and the weight allocated to each of them. -/
structure Batch where
  packages : List DepSpec
  weight : ℚ
deriving DecidableEq, Repr

/-- Engine state: the accumulated weight map (`packageWeightMap`), the
memoised dependency cache (`resolvedPackages`, keyed by canonical spec
string), and the log of keys for which `getDependencies` was invoked. -/
structure St where
  weightMap : List (String × ℚ)
  cache : List (String × List DepSpec)
  calls : List String
deriving DecidableEq, Repr

/-- Ghost accounting of mass that leaves the traversal without being
recorded: `fail` at failed re-resolutions, `eps` at no-comp epsilon
cutoffs, `leak` for the shortfall between a no-comp package's inherited
weight and the total mass it enqueues for its children. -/
structure Disc where
  fail : ℚ
  eps : ℚ
  leak : ℚ
deriving DecidableEq, Repr

instance : Add Disc := ⟨fun a b => ⟨a.fail + b.fail, a.eps + b.eps, a.leak + b.leak⟩⟩

/-- Zero discard record. -/
def Disc.zero : Disc := ⟨0, 0, 0⟩

/-- Total discarded mass. -/
def Disc.total (d : Disc) : ℚ := d.fail + d.eps + d.leak

/-- Association-list lookup (models `Map.get`). -/
def alookup {β : Type} : List (String × β) → String → Option β
  | [], _ => none
  | (k', v) :: rest, k => if k' = k then some v else alookup rest k

/-- `map.set(name, (map.get(name) || 0) + v)`: add `v` onto the entry for
`k`, creating it if absent. -/
def addW : List (String × ℚ) → String → ℚ → List (String × ℚ)
  | [], k, v => [(k, v)]
  | (k', v') :: rest, k, v =>
    if k' = k then (k', v' + v) :: rest else (k', v') :: addW rest k v

/-- Sum of all values in a weight map. -/
def totalW (m : List (String × ℚ)) : ℚ := (m.map Prod.snd).sum

/-- Cache-or-fetch (`resolvedPackages.has(pkgId) ? get : getDependencies`
followed by `set`): returns the dependency list and the updated state,
logging the key when a real fetch happens. -/
def cacheFetch (reg : Registry) (st : St) (s : DepSpec) : List DepSpec × St :=
  match alookup st.cache s.key with
  | some ds => (ds, st)
  | none =>
    let ds := reg.getDependencies s
    (ds, ⟨st.weightMap, (s.key, ds) :: st.cache, st.calls ++ [s.key]⟩)

/-- Fetch the grand-dependency list of each no-comp dependency through the
same memoised cache (the `Promise.all` over `noCompDeps`, linearised). -/
def fetchGrands (reg : Registry) : List DepSpec → St → List (DepSpec × List DepSpec) × St
  | [], st => ([], st)
  | d :: ds, st =>
    let r1 := cacheFetch reg st d
    let r2 := fetchGrands reg ds r1.2
    ((d, r1.1) :: r2.1, r2.2)

/-- The branch structure after the dependency list has been fetched and
filtered: the no-comp split `weight / max(1, n)` with silent epsilon
discard, or the ordinary split `weight / (n + 1)` recording either the
whole inherited weight (below epsilon) or the split weight. -/
def finishPackage (noComp : List String) (ε w : ℚ) (name : String) (ds : List DepSpec)
    (st : St) : St × Option Batch × Disc :=
  if noComp.contains name then
    if w / ((max 1 ds.length : ℕ) : ℚ) < ε then (st, none, ⟨0, w, 0⟩)
    else (st, some ⟨ds, w / ((max 1 ds.length : ℕ) : ℚ)⟩,
      ⟨0, 0, w - (ds.length : ℚ) * (w / ((max 1 ds.length : ℕ) : ℚ))⟩)
  else
    if w / (((ds.length + 1) : ℕ) : ℚ) < ε then
      ({ st with weightMap := addW st.weightMap name w }, none, ⟨0, 0, 0⟩)
    else ({ st with weightMap := addW st.weightMap name (w / (((ds.length + 1) : ℕ) : ℚ)) },
      some ⟨ds, w / (((ds.length + 1) : ℕ) : ℚ)⟩, ⟨0, 0, 0⟩)

/-- Processing of one package with inherited weight `w`: re-resolve its
canonical string, cache-or-fetch its dependencies, drop no-comp
dependencies whose own dependency list is empty, then split. -/
def processPackage (reg : Registry) (noComp : List String) (ε : ℚ) (pkg : DepSpec)
    (w : ℚ) (st : St) : St × Option Batch × Disc :=
  match reg.getSpec pkg.key with
  | none => (st, none, ⟨w, 0, 0⟩)
  | some pkgSpec =>
    let r1 := cacheFetch reg st pkgSpec
    let deps0 := r1.1
    let noCompDeps := deps0.filter (fun d => noComp.contains d.name)
    let r2 := fetchGrands reg noCompDeps r1.2
    let ncwnd := (r2.1.filter (fun pr => pr.2.isEmpty)).map Prod.fst
    let deps := deps0.filter (fun d => ! ncwnd.any (fun n => n.name == d.name))
    finishPackage noComp ε w pkgSpec.name deps r2.2

/-- Process every package of a batch (the `Promise.all`, linearised in list
order), collecting the batches to push and the discarded mass.  The
linearisation is value-faithful for the weight map, the queue and the
mass accounting (all shared updates are additive map entries and
idempotent cache inserts), but it serialises the cache, so same-batch
races of several tasks on one uncached key — in which the program calls
`getDependencies` once per task — collapse to a single fetch; that
interleaving is modelled separately in `concFirstStageCalls`. -/
def processBatch (reg : Registry) (noComp : List String) (ε : ℚ) :
    List DepSpec → ℚ → St → St × List Batch × Disc
  | [], _, st => (st, [], Disc.zero)
  | p :: ps, w, st =>
    let r1 := processPackage reg noComp ε p w st
    let r2 := processBatch reg noComp ε ps w r1.1
    (r2.1, r1.2.1.toList ++ r2.2.1, r1.2.2 + r2.2.2)

/-- The `while (queue.length)` loop, with fuel; the JS array is used as a
stack (pop at the end), so the head of our list is the most recently
pushed batch and a batch's own pushes are reversed onto the front. -/
def runQueue (reg : Registry) (noComp : List String) (ε : ℚ) :
    Nat → St → Disc → List Batch → Option (St × Disc)
  | _, st, dc, [] => some (st, dc)
  | 0, _, _, _ :: _ => none
  | fuel + 1, st, dc, b :: rest =>
    let r := processBatch reg noComp ε b.packages b.weight st
    runQueue reg noComp ε fuel r.1 (dc + r.2.2) (r.2.1.reverse ++ rest)

/-- The successfully resolved top-level specs (failures are filtered out
before the traversal is seeded). -/
def initSpecs (reg : Registry) (top : List String) : List DepSpec :=
  top.filterMap reg.getSpec

/-- `1 / (initialPackageSpecs.length > 0 ? initialPackageSpecs.length : 1)`. -/
def initWeight (reg : Registry) (top : List String) : ℚ :=
  1 / ((max 1 (initSpecs reg top).length : ℕ) : ℚ)

/-- The seeded queue: one batch holding all successfully resolved top-level
specs at the initial weight. -/
def initQueue (reg : Registry) (top : List String) : List Batch :=
  [⟨initSpecs reg top, initWeight reg top⟩]

/-- The empty engine state. -/
def stInit : St := ⟨[], [], []⟩

/-- `computePackageWeight`: seed the queue and run the loop, returning the
weight map (and `none` when the given fuel does not suffice). -/
def computePackageWeight (reg : Registry) (noComp : List String) (ε : ℚ)
    (top : List String) (fuel : Nat) : Option (List (String × ℚ)) :=
  (runQueue reg noComp ε fuel stInit Disc.zero (initQueue reg top)).map (fun r => r.1.weightMap)

/-- One iteration of the loop as a step on (state, discards, queue);
the identity on an empty queue. -/
def stepQueue (reg : Registry) (noComp : List String) (ε : ℚ)
    (s : St × Disc × List Batch) : St × Disc × List Batch :=
  match s.2.2 with
  | [] => s
  | b :: rest =>
    let r := processBatch reg noComp ε b.packages b.weight s.1
    (r.1, s.2.1 + r.2.2, r.2.1.reverse ++ rest)

/-- Mass held by a queued batch: every one of its packages inherits the
batch weight. -/
def batchMass (b : Batch) : ℚ := (b.packages.length : ℚ) * b.weight

/-- Mass held in the queue. -/
def queueMass (q : List Batch) : ℚ := (q.map batchMass).sum

/-- Mass of an optional push. -/
def pushMass : Option Batch → ℚ
  | none => 0
  | some b => batchMass b

/-- Recorded + discarded + queued mass of a loop state. -/
def massAt (s : St × Disc × List Batch) : ℚ :=
  totalW s.1.weightMap + s.2.1.total + queueMass s.2.2

/-- The dependency list of `s` after removal of no-comp dependencies whose
own dependency list is empty, as a pure function of the registry (what the
execution computes whenever the cache agrees with `getDependencies`). -/
def filteredDeps (reg : Registry) (noComp : List String) (s : DepSpec) : List DepSpec :=
  let deps0 := reg.getDependencies s
  let ncwnd := (((deps0.filter (fun d => noComp.contains d.name)).map
    (fun d => (d, reg.getDependencies d))).filter (fun pr => pr.2.isEmpty)).map Prod.fst
  deps0.filter (fun d => ! ncwnd.any (fun n => n.name == d.name))

/-- The cache is keyed by the canonical string only, so two specs with the
same key are treated as the same node; the registry client is required to
be deterministic on the canonical string. -/
def keyDet (reg : Registry) : Prop :=
  ∀ s₁ s₂ : DepSpec, s₁.key = s₂.key → reg.getDependencies s₁ = reg.getDependencies s₂

/-- Every cache entry records the true dependency list of every spec
carrying that key. -/
def cacheOK (reg : Registry) (st : St) : Prop :=
  ∀ k ds, alookup st.cache k = some ds → ∀ s : DepSpec, s.key = k → reg.getDependencies s = ds

/-- The keys fetched by the first stage of one `Promise.all` batch under
the source's actual await structure: every task re-resolves its spec and
checks `resolvedPackages.has(pkgId)` synchronously, before any task's
`await pkgReg.getDependencies(...)` resolves and writes its cache entry,
so each fetch decision is taken against the cache as it stood when the
batch started.  Every successfully resolving package whose key is then
uncached calls `getDependencies` — including several tasks that share
one key, which therefore all fetch it. -/
def concFirstStageCalls (reg : Registry) (cache : List (String × List DepSpec))
    (ps : List DepSpec) : List String :=
  (ps.filterMap (fun p => reg.getSpec p.key)).filterMap
    (fun s => if (alookup cache s.key).isSome then none else some s.key)

/-! ## Association-list lemmas -/

theorem alookup_addW_self (m : List (String × ℚ)) (k : String) (v : ℚ) :
    alookup (addW m k v) k = some (((alookup m k).getD 0) + v) := by
  induction m with
  | nil => simp [alookup, addW]
  | cons hd tl ih =>
    obtain ⟨k', v'⟩ := hd
    by_cases h : k' = k
    · subst h
      simp [alookup, addW]
    · simp [alookup, addW, h, ih]

theorem alookup_addW_ne (m : List (String × ℚ)) (k k' : String) (v : ℚ)
    (h : k' ≠ k) : alookup (addW m k v) k' = alookup m k' := by
  induction m with
  | nil => simp [alookup, addW, if_neg (Ne.symm h)]
  | cons hd tl ih =>
    obtain ⟨k'', v''⟩ := hd
    by_cases hk : k'' = k
    · have hne : k'' ≠ k' := fun hh => h (hh.symm.trans hk)
      simp only [addW, if_pos hk, alookup, if_neg hne]
    · simp only [addW, if_neg hk, alookup]
      by_cases hk' : k'' = k'
      · rw [if_pos hk', if_pos hk']
      · rw [if_neg hk', if_neg hk', ih]

theorem totalW_addW (m : List (String × ℚ)) (k : String) (v : ℚ) :
    totalW (addW m k v) = totalW m + v := by
  induction m with
  | nil => simp [totalW, addW]
  | cons hd tl ih =>
    obtain ⟨k', v'⟩ := hd
    by_cases h : k' = k
    · subst h
      simp [totalW, addW]
      ring
    · simp only [addW, if_neg h, totalW, List.map_cons, List.sum_cons] at *
      rw [ih]
      ring

/-! ## Cache lemmas -/

theorem cacheFetch_weightMap (reg : Registry) (st : St) (s : DepSpec) :
    (cacheFetch reg st s).2.weightMap = st.weightMap := by
  unfold cacheFetch
  cases alookup st.cache s.key <;> rfl

theorem cacheFetch_fst (reg : Registry) (st : St) (s : DepSpec)
    (hc : cacheOK reg st) : (cacheFetch reg st s).1 = reg.getDependencies s := by
  unfold cacheFetch
  cases h : alookup st.cache s.key with
  | none => rfl
  | some ds => exact (hc s.key ds h s rfl).symm

theorem cacheFetch_persist (reg : Registry) (st : St) (s : DepSpec) (k : String)
    (ds : List DepSpec) (h : alookup st.cache k = some ds) :
    alookup (cacheFetch reg st s).2.cache k = some ds := by
  unfold cacheFetch
  cases hl : alookup st.cache s.key with
  | some d => exact h
  | none =>
    simp only [alookup]
    by_cases hk : s.key = k
    · rw [hk] at hl
      rw [hl] at h
      exact absurd h (by simp)
    · rw [if_neg hk]
      exact h

theorem cacheFetch_cacheOK (reg : Registry) (st : St) (s : DepSpec)
    (hdet : keyDet reg) (hc : cacheOK reg st) : cacheOK reg (cacheFetch reg st s).2 := by
  unfold cacheFetch
  cases hl : alookup st.cache s.key with
  | some d => exact hc
  | none =>
    intro k ds hds s' hs'
    simp only [alookup] at hds
    by_cases hk : s.key = k
    · rw [if_pos hk] at hds
      have hds' : reg.getDependencies s = ds := by
        injection hds with hh
      exact (hdet s' s (hs'.trans hk.symm)).trans hds'
    · rw [if_neg hk] at hds
      exact hc k ds hds s' hs'

theorem fetchGrands_weightMap (reg : Registry) (l : List DepSpec) (st : St) :
    (fetchGrands reg l st).2.weightMap = st.weightMap := by
  induction l generalizing st with
  | nil => rfl
  | cons d ds ih =>
    simp only [fetchGrands]
    rw [ih, cacheFetch_weightMap]

theorem fetchGrands_persist (reg : Registry) (l : List DepSpec) (st : St) (k : String)
    (ds : List DepSpec) (h : alookup st.cache k = some ds) :
    alookup (fetchGrands reg l st).2.cache k = some ds := by
  induction l generalizing st with
  | nil => exact h
  | cons d l' ih =>
    simp only [fetchGrands]
    exact ih _ (cacheFetch_persist reg st d k ds h)

theorem fetchGrands_cacheOK (reg : Registry) (l : List DepSpec) (st : St)
    (hdet : keyDet reg) (hc : cacheOK reg st) : cacheOK reg (fetchGrands reg l st).2 := by
  induction l generalizing st with
  | nil => exact hc
  | cons d l' ih =>
    simp only [fetchGrands]
    exact ih _ (cacheFetch_cacheOK reg st d hdet hc)

theorem fetchGrands_fst (reg : Registry) (l : List DepSpec) (st : St)
    (hdet : keyDet reg) (hc : cacheOK reg st) :
    (fetchGrands reg l st).1 = l.map (fun d => (d, reg.getDependencies d)) := by
  induction l generalizing st with
  | nil => rfl
  | cons d l' ih =>
    simp only [fetchGrands, List.map_cons]
    rw [cacheFetch_fst reg st d hc, ih _ (cacheFetch_cacheOK reg st d hdet hc)]

/-- Master characterisation of one package step when re-resolution
succeeds: there is an intermediate state with the same weight map, a cache
that still validates and extends the old one, such that the step finishes
with the branch structure `finishPackage` applied to the pure filtered
dependency list. -/
theorem processPackage_spec (reg : Registry) (noComp : List String) (ε w : ℚ)
    (pkg s : DepSpec) (st : St) (hdet : keyDet reg) (hc : cacheOK reg st)
    (hs : reg.getSpec pkg.key = some s) :
    ∃ st2 : St, st2.weightMap = st.weightMap ∧ cacheOK reg st2 ∧
      (∀ k ds, alookup st.cache k = some ds → alookup st2.cache k = some ds) ∧
      processPackage reg noComp ε pkg w st =
        finishPackage noComp ε w s.name (filteredDeps reg noComp s) st2 := by
  have hc1 := cacheFetch_cacheOK reg st s hdet hc
  refine ⟨(fetchGrands reg (((cacheFetch reg st s).1).filter
    (fun d => noComp.contains d.name)) (cacheFetch reg st s).2).2, ?_, ?_, ?_, ?_⟩
  · rw [fetchGrands_weightMap, cacheFetch_weightMap]
  · exact fetchGrands_cacheOK reg _ _ hdet hc1
  · intro k ds h
    exact fetchGrands_persist reg _ _ k ds (cacheFetch_persist reg st s k ds h)
  · unfold processPackage
    rw [hs]
    simp only [filteredDeps]
    rw [cacheFetch_fst reg st s hc]
    rw [fetchGrands_fst reg _ _ hdet hc1]

/-! ## Mass accounting -/

theorem Disc_total_add (a b : Disc) : (a + b).total = a.total + b.total := by
  show (a.fail + b.fail) + (a.eps + b.eps) + (a.leak + b.leak) =
    (a.fail + a.eps + a.leak) + (b.fail + b.eps + b.leak)
  ring

theorem Disc_total_zero : Disc.zero.total = 0 := by
  show (0 : ℚ) + 0 + 0 = 0
  norm_num

theorem finishPackage_mass (noComp : List String) (ε w : ℚ) (name : String)
    (ds : List DepSpec) (st : St) :
    totalW (finishPackage noComp ε w name ds st).1.weightMap +
      pushMass (finishPackage noComp ε w name ds st).2.1 +
      (finishPackage noComp ε w name ds st).2.2.total =
    totalW st.weightMap + w := by
  unfold finishPackage
  by_cases hnc : noComp.contains name
  · rw [if_pos hnc]
    by_cases hlt : w / ((max 1 ds.length : ℕ) : ℚ) < ε
    · rw [if_pos hlt]
      show totalW st.weightMap + 0 + ((0 : ℚ) + w + 0) = totalW st.weightMap + w
      ring
    · rw [if_neg hlt]
      show totalW st.weightMap +
        (ds.length : ℚ) * (w / ((max 1 ds.length : ℕ) : ℚ)) +
        ((0 : ℚ) + 0 + (w - (ds.length : ℚ) * (w / ((max 1 ds.length : ℕ) : ℚ)))) =
        totalW st.weightMap + w
      ring
  · rw [if_neg hnc]
    by_cases hlt : w / (((ds.length + 1) : ℕ) : ℚ) < ε
    · rw [if_pos hlt]
      show totalW (addW st.weightMap name w) + 0 + ((0 : ℚ) + 0 + 0) =
        totalW st.weightMap + w
      rw [totalW_addW]
      ring
    · rw [if_neg hlt]
      show totalW (addW st.weightMap name (w / (((ds.length + 1) : ℕ) : ℚ))) +
        (ds.length : ℚ) * (w / (((ds.length + 1) : ℕ) : ℚ)) + ((0 : ℚ) + 0 + 0) =
        totalW st.weightMap + w
      rw [totalW_addW]
      have hne : (((ds.length + 1) : ℕ) : ℚ) ≠ 0 := by
        exact_mod_cast Nat.succ_ne_zero ds.length
      have hcan : (((ds.length + 1) : ℕ) : ℚ) * (w / (((ds.length + 1) : ℕ) : ℚ)) = w :=
        mul_div_cancel₀ w hne
      push_cast at hcan ⊢
      nlinarith [hcan]

theorem processPackage_mass (reg : Registry) (noComp : List String) (ε : ℚ)
    (pkg : DepSpec) (w : ℚ) (st : St) :
    totalW (processPackage reg noComp ε pkg w st).1.weightMap +
      pushMass (processPackage reg noComp ε pkg w st).2.1 +
      (processPackage reg noComp ε pkg w st).2.2.total =
    totalW st.weightMap + w := by
  unfold processPackage
  cases hs : reg.getSpec pkg.key with
  | none =>
    show totalW st.weightMap + 0 + (w + 0 + 0) = totalW st.weightMap + w
    ring
  | some s =>
    simp only
    rw [finishPackage_mass]
    rw [fetchGrands_weightMap, cacheFetch_weightMap]

theorem queueMass_append (q₁ q₂ : List Batch) :
    queueMass (q₁ ++ q₂) = queueMass q₁ + queueMass q₂ := by
  unfold queueMass
  rw [List.map_append, List.sum_append]

theorem queueMass_reverse (q : List Batch) : queueMass q.reverse = queueMass q := by
  unfold queueMass
  rw [List.map_reverse, List.sum_reverse]

theorem queueMass_toList (ob : Option Batch) :
    queueMass ob.toList = pushMass ob := by
  cases ob with
  | none => simp [queueMass, pushMass]
  | some b => simp [queueMass, pushMass]

theorem processBatch_mass (reg : Registry) (noComp : List String) (ε : ℚ)
    (ps : List DepSpec) (w : ℚ) (st : St) :
    totalW (processBatch reg noComp ε ps w st).1.weightMap +
      queueMass (processBatch reg noComp ε ps w st).2.1 +
      (processBatch reg noComp ε ps w st).2.2.total =
    totalW st.weightMap + (ps.length : ℚ) * w := by
  induction ps generalizing st with
  | nil =>
    show totalW st.weightMap + queueMass [] + Disc.zero.total =
      totalW st.weightMap + ((0 : ℕ) : ℚ) * w
    rw [Disc_total_zero]
    show totalW st.weightMap + 0 + 0 = totalW st.weightMap + ((0 : ℕ) : ℚ) * w
    push_cast
    ring
  | cons p ps ih =>
    simp only [processBatch]
    rw [queueMass_append, queueMass_toList, Disc_total_add]
    have h1 := processPackage_mass reg noComp ε p w st
    have h2 := ih (processPackage reg noComp ε p w st).1
    simp only [List.length_cons]
    push_cast
    push_cast at h2
    nlinarith [h1, h2]

theorem stepQueue_mass (reg : Registry) (noComp : List String) (ε : ℚ)
    (s : St × Disc × List Batch) :
    massAt (stepQueue reg noComp ε s) = massAt s := by
  obtain ⟨st, dc, q⟩ := s
  cases q with
  | nil => rfl
  | cons b rest =>
    unfold stepQueue massAt
    simp only
    rw [queueMass_append, queueMass_reverse, Disc_total_add]
    have h := processBatch_mass reg noComp ε b.packages b.weight st
    have hq : queueMass (b :: rest) = (b.packages.length : ℚ) * b.weight + queueMass rest := by
      show ((b :: rest).map batchMass).sum = _
      rw [List.map_cons, List.sum_cons]
      rfl
    rw [hq]
    nlinarith [h]

theorem runQueue_mass (reg : Registry) (noComp : List String) (ε : ℚ)
    (fuel : Nat) (st : St) (dc : Disc) (q : List Batch) (st' : St) (dc' : Disc)
    (h : runQueue reg noComp ε fuel st dc q = some (st', dc')) :
    totalW st'.weightMap + dc'.total =
    totalW st.weightMap + dc.total + queueMass q := by
  induction fuel generalizing st dc q with
  | zero =>
    cases q with
    | nil =>
      simp only [runQueue] at h
      injection h with h
      injection h with h1 h2
      subst h1; subst h2
      show totalW st.weightMap + dc.total = totalW st.weightMap + dc.total + queueMass []
      show totalW st.weightMap + dc.total = totalW st.weightMap + dc.total + 0
      ring
    | cons b rest => exact absurd h (by simp [runQueue])
  | succ fuel ih =>
    cases q with
    | nil =>
      simp only [runQueue] at h
      injection h with h
      injection h with h1 h2
      subst h1; subst h2
      show totalW st.weightMap + dc.total = totalW st.weightMap + dc.total + 0
      ring
    | cons b rest =>
      simp only [runQueue] at h
      have hstep := ih _ _ _ h
      rw [hstep, queueMass_append, queueMass_reverse, Disc_total_add]
      have h1 := processBatch_mass reg noComp ε b.packages b.weight st
      have hq : queueMass (b :: rest) = (b.packages.length : ℚ) * b.weight + queueMass rest := by
        show ((b :: rest).map batchMass).sum = _
        rw [List.map_cons, List.sum_cons]
        rfl
      rw [hq]
      nlinarith [h1]

/-! ## Structural preservation lemmas -/

theorem Disc_add_zero (d : Disc) : d + Disc.zero = d := by
  show (⟨d.fail + 0, d.eps + 0, d.leak + 0⟩ : Disc) = d
  simp

theorem finishPackage_cache (noComp : List String) (ε w : ℚ) (name : String)
    (ds : List DepSpec) (st : St) :
    (finishPackage noComp ε w name ds st).1.cache = st.cache := by
  unfold finishPackage
  by_cases hnc : noComp.contains name <;>
    [skip; skip] <;> split <;> simp_all <;> split <;> rfl

theorem finishPackage_calls (noComp : List String) (ε w : ℚ) (name : String)
    (ds : List DepSpec) (st : St) :
    (finishPackage noComp ε w name ds st).1.calls = st.calls := by
  unfold finishPackage
  by_cases hnc : noComp.contains name <;>
    [skip; skip] <;> split <;> simp_all <;> split <;> rfl

theorem processPackage_persist (reg : Registry) (noComp : List String) (ε : ℚ)
    (pkg : DepSpec) (w : ℚ) (st : St) (k : String) (ds : List DepSpec)
    (h : alookup st.cache k = some ds) :
    alookup (processPackage reg noComp ε pkg w st).1.cache k = some ds := by
  unfold processPackage
  cases hs : reg.getSpec pkg.key with
  | none => exact h
  | some s =>
    simp only
    rw [finishPackage_cache]
    exact fetchGrands_persist reg _ _ k ds (cacheFetch_persist reg st s k ds h)

theorem processBatch_persist (reg : Registry) (noComp : List String) (ε : ℚ)
    (ps : List DepSpec) (w : ℚ) (st : St) (k : String) (ds : List DepSpec)
    (h : alookup st.cache k = some ds) :
    alookup (processBatch reg noComp ε ps w st).1.cache k = some ds := by
  induction ps generalizing st with
  | nil => exact h
  | cons p ps ih =>
    simp only [processBatch]
    exact ih _ (processPackage_persist reg noComp ε p w st k ds h)

theorem processPackage_cacheOK (reg : Registry) (noComp : List String) (ε : ℚ)
    (pkg : DepSpec) (w : ℚ) (st : St) (hdet : keyDet reg) (hc : cacheOK reg st) :
    cacheOK reg (processPackage reg noComp ε pkg w st).1 := by
  unfold processPackage
  cases hs : reg.getSpec pkg.key with
  | none => exact hc
  | some s =>
    simp only
    intro k ds hds
    rw [finishPackage_cache] at hds
    exact fetchGrands_cacheOK reg _ _ hdet (cacheFetch_cacheOK reg st s hdet hc) k ds hds

theorem processBatch_cacheOK (reg : Registry) (noComp : List String) (ε : ℚ)
    (ps : List DepSpec) (w : ℚ) (st : St) (hdet : keyDet reg) (hc : cacheOK reg st) :
    cacheOK reg (processBatch reg noComp ε ps w st).1 := by
  induction ps generalizing st with
  | nil => exact hc
  | cons p ps ih =>
    simp only [processBatch]
    exact ih _ (processPackage_cacheOK reg noComp ε p w st hdet hc)

/-! ## Empty no-comp set never discards mass -/

theorem processPackage_disc_empty (reg : Registry) (ε : ℚ) (pkg : DepSpec) (w : ℚ)
    (st : St) (h : (reg.getSpec pkg.key).isSome) :
    (processPackage reg [] ε pkg w st).2.2 = Disc.zero := by
  unfold processPackage
  cases hs : reg.getSpec pkg.key with
  | none => rw [hs] at h; exact absurd h (by simp)
  | some s =>
    simp only
    unfold finishPackage
    rw [if_neg (by simp : ¬ (([] : List String).contains s.name = true))]
    split <;> rfl

theorem processBatch_disc_empty (reg : Registry) (ε : ℚ) (ps : List DepSpec) (w : ℚ)
    (st : St) (h : ∀ s, (reg.getSpec s).isSome) :
    (processBatch reg [] ε ps w st).2.2 = Disc.zero := by
  induction ps generalizing st with
  | nil => rfl
  | cons p ps ih =>
    simp only [processBatch]
    rw [processPackage_disc_empty reg ε p w st (h p.key), ih]
    exact Disc_add_zero Disc.zero

theorem runQueue_disc_empty (reg : Registry) (ε : ℚ) (fuel : Nat) (st : St) (dc : Disc)
    (q : List Batch) (st' : St) (dc' : Disc) (h : ∀ s, (reg.getSpec s).isSome)
    (hr : runQueue reg [] ε fuel st dc q = some (st', dc')) : dc' = dc := by
  induction fuel generalizing st dc q with
  | zero =>
    cases q with
    | nil =>
      simp only [runQueue] at hr
      injection hr with hr
      injection hr with h1 h2
      exact h2.symm
    | cons b rest => exact absurd hr (by simp [runQueue])
  | succ fuel ih =>
    cases q with
    | nil =>
      simp only [runQueue] at hr
      injection hr with hr
      injection hr with h1 h2
      exact h2.symm
    | cons b rest =>
      simp only [runQueue] at hr
      have := ih _ _ _ hr
      rw [this, processBatch_disc_empty reg ε b.packages b.weight st h]
      exact Disc_add_zero dc

/-! ## No-comp names never receive weight -/

/-- No name of the no-comp set has an entry in the weight map. -/
def noCompFree (noComp : List String) (m : List (String × ℚ)) : Prop :=
  ∀ k, noComp.contains k = true → alookup m k = none

theorem finishPackage_noCompFree (noComp : List String) (ε w : ℚ) (name : String)
    (ds : List DepSpec) (st : St) (h : noCompFree noComp st.weightMap) :
    noCompFree noComp (finishPackage noComp ε w name ds st).1.weightMap := by
  unfold finishPackage
  by_cases hnc : noComp.contains name
  · rw [if_pos hnc]
    split
    · exact h
    · exact h
  · rw [if_neg hnc]
    have hadd : ∀ v, noCompFree noComp (addW st.weightMap name v) := by
      intro v k hk
      have hne : k ≠ name := fun he => hnc (he ▸ hk)
      rw [alookup_addW_ne st.weightMap name k v hne]
      exact h k hk
    split
    · exact hadd w
    · exact hadd _

theorem processPackage_noCompFree (reg : Registry) (noComp : List String) (ε : ℚ)
    (pkg : DepSpec) (w : ℚ) (st : St) (h : noCompFree noComp st.weightMap) :
    noCompFree noComp (processPackage reg noComp ε pkg w st).1.weightMap := by
  unfold processPackage
  cases hs : reg.getSpec pkg.key with
  | none => exact h
  | some s =>
    simp only
    apply finishPackage_noCompFree
    rw [fetchGrands_weightMap, cacheFetch_weightMap]
    exact h

theorem processBatch_noCompFree (reg : Registry) (noComp : List String) (ε : ℚ)
    (ps : List DepSpec) (w : ℚ) (st : St) (h : noCompFree noComp st.weightMap) :
    noCompFree noComp (processBatch reg noComp ε ps w st).1.weightMap := by
  induction ps generalizing st with
  | nil => exact h
  | cons p ps ih =>
    simp only [processBatch]
    exact ih _ (processPackage_noCompFree reg noComp ε p w st h)

theorem runQueue_noCompFree (reg : Registry) (noComp : List String) (ε : ℚ)
    (fuel : Nat) (st : St) (dc : Disc) (q : List Batch) (st' : St) (dc' : Disc)
    (h : noCompFree noComp st.weightMap)
    (hr : runQueue reg noComp ε fuel st dc q = some (st', dc')) :
    noCompFree noComp st'.weightMap := by
  induction fuel generalizing st dc q with
  | zero =>
    cases q with
    | nil =>
      simp only [runQueue] at hr
      injection hr with hr
      injection hr with h1 h2
      exact h1 ▸ h
    | cons b rest => exact absurd hr (by simp [runQueue])
  | succ fuel ih =>
    cases q with
    | nil =>
      simp only [runQueue] at hr
      injection hr with hr
      injection hr with h1 h2
      exact h1 ▸ h
    | cons b rest =>
      simp only [runQueue] at hr
      exact ih _ _ _ (processBatch_noCompFree reg noComp ε b.packages b.weight st h) hr

/-! ## Calls log and cache agree -/

/-- The call log is duplicate-free and holds exactly the cached keys. -/
def callsInv (st : St) : Prop :=
  st.calls.Nodup ∧ ∀ k, k ∈ st.calls ↔ (alookup st.cache k).isSome

theorem cacheFetch_callsInv (reg : Registry) (st : St) (s : DepSpec)
    (h : callsInv st) : callsInv (cacheFetch reg st s).2 := by
  obtain ⟨hnd, hiff⟩ := h
  unfold cacheFetch
  cases hl : alookup st.cache s.key with
  | some d => exact ⟨hnd, hiff⟩
  | none =>
    have hkn : s.key ∉ st.calls := by
      intro hmem
      have h2 := (hiff s.key).mp hmem
      rw [hl] at h2
      simp at h2
    constructor
    · show (st.calls ++ [s.key]).Nodup
      rw [List.nodup_append]
      refine ⟨hnd, List.nodup_singleton _, ?_⟩
      intro x hx hy
      rw [List.mem_singleton] at hy
      subst hy
      exact hkn hx
    · intro k
      show k ∈ st.calls ++ [s.key] ↔ (alookup ((s.key, reg.getDependencies s) :: st.cache) k).isSome
      rw [List.mem_append]
      simp only [alookup]
      by_cases hk : s.key = k
      · subst hk
        simp
      · rw [if_neg hk]
        constructor
        · intro hin
          rcases hin with hin | hin
          · exact (hiff k).mp hin
          · exact absurd (by simpa using hin) (fun he : k = s.key => hk he.symm)
        · intro hin
          exact Or.inl ((hiff k).mpr hin)

theorem fetchGrands_callsInv (reg : Registry) (l : List DepSpec) (st : St)
    (h : callsInv st) : callsInv (fetchGrands reg l st).2 := by
  induction l generalizing st with
  | nil => exact h
  | cons d ds ih =>
    simp only [fetchGrands]
    exact ih _ (cacheFetch_callsInv reg st d h)

theorem processPackage_callsInv (reg : Registry) (noComp : List String) (ε : ℚ)
    (pkg : DepSpec) (w : ℚ) (st : St) (h : callsInv st) :
    callsInv (processPackage reg noComp ε pkg w st).1 := by
  unfold processPackage
  cases hs : reg.getSpec pkg.key with
  | none => exact h
  | some s =>
    simp only
    have h2 := fetchGrands_callsInv reg
      ((cacheFetch reg st s).1.filter (fun d => noComp.contains d.name))
      (cacheFetch reg st s).2 (cacheFetch_callsInv reg st s h)
    constructor
    · rw [finishPackage_calls]
      exact h2.1
    · intro k
      rw [finishPackage_calls, finishPackage_cache]
      exact h2.2 k

theorem processBatch_callsInv (reg : Registry) (noComp : List String) (ε : ℚ)
    (ps : List DepSpec) (w : ℚ) (st : St) (h : callsInv st) :
    callsInv (processBatch reg noComp ε ps w st).1 := by
  induction ps generalizing st with
  | nil => exact h
  | cons p ps ih =>
    simp only [processBatch]
    exact ih _ (processPackage_callsInv reg noComp ε p w st h)

theorem runQueue_callsInv (reg : Registry) (noComp : List String) (ε : ℚ)
    (fuel : Nat) (st : St) (dc : Disc) (q : List Batch) (st' : St) (dc' : Disc)
    (h : callsInv st) (hr : runQueue reg noComp ε fuel st dc q = some (st', dc')) :
    callsInv st' := by
  induction fuel generalizing st dc q with
  | zero =>
    cases q with
    | nil =>
      simp only [runQueue] at hr
      injection hr with hr
      injection hr with h1 h2
      exact h1 ▸ h
    | cons b rest => exact absurd hr (by simp [runQueue])
  | succ fuel ih =>
    cases q with
    | nil =>
      simp only [runQueue] at hr
      injection hr with hr
      injection hr with h1 h2
      exact h1 ▸ h
    | cons b rest =>
      simp only [runQueue] at hr
      exact ih _ _ _ (processBatch_callsInv reg noComp ε b.packages b.weight st h) hr

/-! ## Concrete registries for scenarios -/

/-- Dependency table of the repository's main test graph. -/
def depTable7 : String → List DepSpec
  | "js-deep-equals" => [⟨"murmurhash", "murmurhash"⟩]
  | "web-app-thing" => [⟨"react", "react"⟩]
  | "react" => [⟨"murmurhash", "murmurhash"⟩]
  | _ => []

/-- Resolution table of the repository's main test graph. -/
def specTable7 : String → Option DepSpec
  | "js-deep-equals" => some ⟨"js-deep-equals", "js-deep-equals"⟩
  | "web-app-thing" => some ⟨"web-app-thing", "web-app-thing"⟩
  | "react" => some ⟨"react", "react"⟩
  | "murmurhash" => some ⟨"murmurhash", "murmurhash"⟩
  | _ => none

/-- The registry of the repository's main test graph. -/
def reg7 : Registry := ⟨specTable7, fun s => depTable7 s.key⟩

/-- A registry where only the specifier `good` resolves, to a leaf. -/
def regC2 : Registry := ⟨fun t => if t = "good" then some ⟨"good", "good"⟩ else none, fun _ => []⟩

/-- A registry where only the specifier `a` resolves, to a leaf. -/
def regOne : Registry := ⟨fun t => if t = "a" then some ⟨"a", "a"⟩ else none, fun _ => []⟩

/-- A registry where every specifier resolves to a leaf named after itself. -/
def regAll : Registry := ⟨fun t => some ⟨t, t⟩, fun _ => []⟩

/-- Dependency table with two same-named no-comp siblings, one a leaf
(key `a1`) and one with a child (key `a2`). -/
def depTable6 : String → List DepSpec
  | "p" => [⟨"a", "a1"⟩, ⟨"a", "a2"⟩]
  | "a2" => [⟨"b", "b"⟩]
  | _ => []

/-- Registry for the same-named no-comp sibling scenario. -/
def reg6 : Registry := ⟨fun t => some ⟨t, t⟩, fun s => depTable6 s.key⟩

/-- A registry with a self-referential no-comp package `a`. -/
def regLoop : Registry := ⟨fun t => if t = "a" then some ⟨"a", "a"⟩ else none,
  fun s => if s.key = "a" then [⟨"a", "a"⟩] else []⟩

/-! ## Helper lemmas for the claims -/

theorem length_filterMap_countP {α β : Type} (f : α → Option β) (l : List α) :
    (l.filterMap f).length = l.countP (fun a => (f a).isSome) := by
  induction l with
  | nil => rfl
  | cons a l ih =>
    cases h : f a <;> simp [List.filterMap_cons, h, List.countP_cons, ih]

theorem length_filterMap_of_isSome {α β : Type} (f : α → Option β) (l : List α)
    (h : ∀ a ∈ l, (f a).isSome) : (l.filterMap f).length = l.length := by
  induction l with
  | nil => rfl
  | cons a l ih =>
    rcases Option.isSome_iff_exists.mp (h a (by simp)) with ⟨b, hb⟩
    simp only [List.filterMap_cons, hb, List.length_cons]
    rw [ih (fun x hx => h x (by simp [hx]))]

theorem cacheOK_init (reg : Registry) : cacheOK reg stInit := by
  intro k ds h
  exact absurd h (by simp [stInit, alookup])

theorem mem_ncwnd (reg : Registry) (noComp : List String) (s n : DepSpec) :
    n ∈ (((((reg.getDependencies s).filter (fun d => noComp.contains d.name)).map
        (fun d => (d, reg.getDependencies d))).filter (fun pr => pr.2.isEmpty)).map Prod.fst) ↔
      n ∈ reg.getDependencies s ∧ noComp.contains n.name = true ∧
        reg.getDependencies n = [] := by
  constructor
  · intro h
    rcases List.mem_map.mp h with ⟨pr, hpr, hfst⟩
    rcases List.mem_filter.mp hpr with ⟨hmem, hempty⟩
    rcases List.mem_map.mp hmem with ⟨d, hd, hdpr⟩
    rcases List.mem_filter.mp hd with ⟨hd0, hcon⟩
    subst hdpr
    have hdn : d = n := hfst
    subst hdn
    refine ⟨hd0, hcon, ?_⟩
    simpa using List.isEmpty_iff.mp hempty
  · rintro ⟨h1, h2, h3⟩
    refine List.mem_map.mpr ⟨(n, reg.getDependencies n), ?_, rfl⟩
    refine List.mem_filter.mpr ⟨?_, ?_⟩
    · exact List.mem_map.mpr ⟨n, List.mem_filter.mpr ⟨h1, h2⟩, rfl⟩
    · show (reg.getDependencies n).isEmpty = true
      rw [h3]
      rfl

/-! ## Claim theorems -/

/-- C2: top-level entries that fail to resolve are dropped non-fatally and
excluded from the initial-weight denominator: the seed specs are exactly
the successfully resolved ones, the initial weight is
`1 / max(1, count of successfully resolving entries)`, and concretely one
failing plus one succeeding specifier gives the succeeding package alone
the full initial weight 1. -/
theorem c2_initial_weight :
    (∀ (reg : Registry) (top : List String) (s : DepSpec),
      s ∈ initSpecs reg top ↔ ∃ t ∈ top, reg.getSpec t = some s) ∧
    (∀ (reg : Registry) (top : List String),
      initWeight reg top =
        1 / ((max 1 (top.countP (fun t => (reg.getSpec t).isSome)) : ℕ) : ℚ)) ∧
    computePackageWeight regC2 [] (1/100) ["bad", "good"] 3 = some [("good", 1)] := by
  refine ⟨?_, ?_, ?_⟩
  · intro reg top s
    exact List.mem_filterMap
  · intro reg top
    rw [initWeight, initSpecs, length_filterMap_countP]
  · norm_num +decide [computePackageWeight, runQueue, processBatch, processPackage, cacheFetch,
      fetchGrands, finishPackage, alookup, addW, initQueue, initSpecs, initWeight, stInit,
      Disc.zero, regC2, List.filterMap]

/-- C7: the repository's main scenario: top level `js-deep-equals` and
`web-app-thing`, `js-deep-equals -> [murmurhash]`,
`web-app-thing -> [react]`, `react -> [murmurhash]`, `murmurhash -> []`,
no-comp `{react}`, epsilon `0.01`; the result is exactly
`js-deep-equals = 0.25`, `web-app-thing = 0.25`, `murmurhash = 0.5` with
`react` absent. -/
theorem c7_scenario :
    computePackageWeight reg7 ["react"] (1/100) ["js-deep-equals", "web-app-thing"] 10 =
      some [("js-deep-equals", 1/4), ("web-app-thing", 1/4), ("murmurhash", 1/2)] ∧
    alookup [("js-deep-equals", (1:ℚ)/4), ("web-app-thing", 1/4), ("murmurhash", 1/2)]
      "react" = none := by
  constructor
  · norm_num +decide [computePackageWeight, runQueue, processBatch, processPackage, cacheFetch,
      fetchGrands, finishPackage, alookup, addW, initQueue, initSpecs, initWeight, stInit,
      Disc.zero, reg7, depTable7, specTable7, List.filterMap]
  · norm_num +decide [alookup]

/-- C9: a package whose canonical specifier fails to re-resolve is skipped
non-fatally: its state is untouched, nothing is recorded or enqueued for
it, its inherited weight is discarded, and the remaining packages of the
same batch are processed exactly as they would be without it. -/
theorem c9_resolution_failure (reg : Registry) (noComp : List String) (ε : ℚ)
    (pkg : DepSpec) (ps : List DepSpec) (w : ℚ) (st : St)
    (hfail : reg.getSpec pkg.key = none) :
    (processPackage reg noComp ε pkg w st).1 = st ∧
    (processPackage reg noComp ε pkg w st).2.1 = none ∧
    (processPackage reg noComp ε pkg w st).2.2 = ⟨w, 0, 0⟩ ∧
    (processBatch reg noComp ε (pkg :: ps) w st).1 = (processBatch reg noComp ε ps w st).1 ∧
    (processBatch reg noComp ε (pkg :: ps) w st).2.1 =
      (processBatch reg noComp ε ps w st).2.1 ∧
    (processBatch reg noComp ε (pkg :: ps) w st).2.2 =
      (⟨w, 0, 0⟩ : Disc) + (processBatch reg noComp ε ps w st).2.2 := by
  have hp : processPackage reg noComp ε pkg w st = (st, none, ⟨w, 0, 0⟩) := by
    unfold processPackage
    rw [hfail]
  refine ⟨by rw [hp], by rw [hp], by rw [hp], ?_, ?_, ?_⟩ <;>
    simp only [processBatch, hp, Option.toList, List.nil_append]

/-- C10: a package outside the no-comp set whose filtered dependency list
is empty receives its entire inherited weight regardless of how that
weight compares to epsilon, because with zero dependencies the split
weight equals the inherited weight and the two branches coincide. -/
theorem c10_leaf_full_weight (reg : Registry) (noComp : List String) (ε w : ℚ)
    (pkg s : DepSpec) (st : St) (hdet : keyDet reg) (hc : cacheOK reg st)
    (hs : reg.getSpec pkg.key = some s) (hnc : noComp.contains s.name = false)
    (hleaf : filteredDeps reg noComp s = []) :
    alookup (processPackage reg noComp ε pkg w st).1.weightMap s.name =
      some ((alookup st.weightMap s.name).getD 0 + w) := by
  obtain ⟨st2, hwm, hok2, hpers, heq⟩ := processPackage_spec reg noComp ε w pkg s st hdet hc hs
  rw [heq, hleaf]
  unfold finishPackage
  rw [if_neg (by simp only [hnc]; exact Bool.false_ne_true)]
  have hsw : w / ((((([] : List DepSpec).length) + 1) : ℕ) : ℚ) = w := by
    norm_num
  rw [hsw]
  split
  · show alookup (addW st2.weightMap s.name w) s.name = _
    rw [alookup_addW_self, hwm]
  · show alookup (addW st2.weightMap s.name w) s.name = _
    rw [alookup_addW_self, hwm]

/-- C4: a processed package outside the no-comp set with inherited weight
`w` and filtered dependency list of length `n` splits at `w / (n + 1)`;
below epsilon the entire inherited weight is summed onto its name and
nothing is enqueued, otherwise the split weight is summed onto its name
and the work item `(filteredDeps, splitWeight)` is enqueued. -/
theorem c4_split_branch (reg : Registry) (noComp : List String) (ε w : ℚ)
    (pkg s : DepSpec) (st : St) (hdet : keyDet reg) (hc : cacheOK reg st)
    (hs : reg.getSpec pkg.key = some s) (hnc : noComp.contains s.name = false) :
    (w / ((((filteredDeps reg noComp s).length + 1) : ℕ) : ℚ) < ε →
      alookup (processPackage reg noComp ε pkg w st).1.weightMap s.name =
        some ((alookup st.weightMap s.name).getD 0 + w) ∧
      (processPackage reg noComp ε pkg w st).2.1 = none) ∧
    (ε ≤ w / ((((filteredDeps reg noComp s).length + 1) : ℕ) : ℚ) →
      alookup (processPackage reg noComp ε pkg w st).1.weightMap s.name =
        some ((alookup st.weightMap s.name).getD 0 +
          w / ((((filteredDeps reg noComp s).length + 1) : ℕ) : ℚ)) ∧
      (processPackage reg noComp ε pkg w st).2.1 =
        some ⟨filteredDeps reg noComp s,
          w / ((((filteredDeps reg noComp s).length + 1) : ℕ) : ℚ)⟩) := by
  obtain ⟨st2, hwm, hok2, hpers, heq⟩ := processPackage_spec reg noComp ε w pkg s st hdet hc hs
  rw [heq]
  unfold finishPackage
  rw [if_neg (by simp only [hnc]; exact Bool.false_ne_true)]
  constructor
  · intro hlt
    rw [if_pos hlt]
    constructor
    · show alookup (addW st2.weightMap s.name w) s.name = _
      rw [alookup_addW_self, hwm]
    · rfl
  · intro hge
    rw [if_neg (not_lt.mpr hge)]
    constructor
    · show alookup (addW st2.weightMap s.name _) s.name = _
      rw [alookup_addW_self, hwm]
    · rfl

/-- C5: a processed package in the no-comp set with inherited weight `w`
and filtered dependency list of length `n` splits at `w / max(1, n)`,
never touching the weight map; below epsilon the weight is discarded and
nothing is enqueued, otherwise the work item `(filteredDeps, splitWeight)`
is enqueued; and no key of any resulting weight map is a no-comp name. -/
theorem c5_nocomp_branch :
    (∀ (reg : Registry) (noComp : List String) (ε w : ℚ) (pkg s : DepSpec) (st : St),
      keyDet reg → cacheOK reg st → reg.getSpec pkg.key = some s →
      noComp.contains s.name = true →
      (processPackage reg noComp ε pkg w st).1.weightMap = st.weightMap ∧
      (w / ((max 1 (filteredDeps reg noComp s).length : ℕ) : ℚ) < ε →
        (processPackage reg noComp ε pkg w st).2.1 = none ∧
        (processPackage reg noComp ε pkg w st).2.2 = ⟨0, w, 0⟩) ∧
      (ε ≤ w / ((max 1 (filteredDeps reg noComp s).length : ℕ) : ℚ) →
        (processPackage reg noComp ε pkg w st).2.1 =
          some ⟨filteredDeps reg noComp s,
            w / ((max 1 (filteredDeps reg noComp s).length : ℕ) : ℚ)⟩)) ∧
    (∀ (reg : Registry) (noComp : List String) (ε : ℚ) (top : List String)
      (fuel : Nat) (m : List (String × ℚ)),
      computePackageWeight reg noComp ε top fuel = some m →
      ∀ k, noComp.contains k = true → alookup m k = none) := by
  constructor
  · intro reg noComp ε w pkg s st hdet hc hs hnc
    obtain ⟨st2, hwm, hok2, hpers, heq⟩ :=
      processPackage_spec reg noComp ε w pkg s st hdet hc hs
    rw [heq]
    unfold finishPackage
    rw [if_pos hnc]
    refine ⟨?_, ?_, ?_⟩
    · split
      · exact hwm
      · exact hwm
    · intro hlt
      rw [if_pos hlt]
      exact ⟨rfl, rfl⟩
    · intro hge
      rw [if_neg (not_lt.mpr hge)]
  · intro reg noComp ε top fuel m hm
    unfold computePackageWeight at hm
    rcases Option.map_eq_some'.mp hm with ⟨⟨st', dc'⟩, hr, hwm⟩
    have hfree : noCompFree noComp stInit.weightMap := by
      intro k hk
      rfl
    have := runQueue_noCompFree reg noComp ε fuel stInit Disc.zero
      (initQueue reg top) st' dc' hfree hr
    intro k hk
    rw [← hwm]
    exact this k hk

/-- C6 (amended): a dependency is removed from the split list exactly when
its bare name is in the no-comp set and some dependency of the same list
bearing that name has an empty dependency list; in particular every
no-comp dependency whose own dependency list is empty is removed, but a
no-comp dependency with grandchildren is also removed whenever a
same-named sibling has none. -/
theorem c6_filter_amended (reg : Registry) (noComp : List String) (s d : DepSpec) :
    d ∈ filteredDeps reg noComp s ↔
      d ∈ reg.getDependencies s ∧
        ¬ (noComp.contains d.name = true ∧ ∃ n ∈ reg.getDependencies s,
           n.name = d.name ∧ reg.getDependencies n = []) := by
  unfold filteredDeps
  rw [List.mem_filter]
  constructor
  · rintro ⟨hmem, hall⟩
    rw [Bool.not_eq_true', List.any_eq_false] at hall
    refine ⟨hmem, ?_⟩
    rintro ⟨hcon, n, hn, hname, hleaf⟩
    have hnc : n ∈ ((((reg.getDependencies s).filter (fun d => noComp.contains d.name)).map
        (fun d => (d, reg.getDependencies d))).filter (fun pr => pr.2.isEmpty)).map Prod.fst :=
      (mem_ncwnd reg noComp s n).mpr ⟨hn, by rw [hname]; exact hcon, hleaf⟩
    have hno := hall n hnc
    rw [hname] at hno
    exact hno (beq_self_eq_true d.name)
  · rintro ⟨hmem, hneg⟩
    refine ⟨hmem, ?_⟩
    rw [Bool.not_eq_true', List.any_eq_false]
    intro n hn
    rcases (mem_ncwnd reg noComp s n).mp hn with ⟨h1, h2, h3⟩
    intro hbeq
    have hname : n.name = d.name := eq_of_beq hbeq
    exact hneg ⟨by rw [← hname]; exact h2, n, h1, hname, h3⟩

theorem Disc_add_def (a b : Disc) : a + b = ⟨a.fail + b.fail, a.eps + b.eps, a.leak + b.leak⟩ :=
  rfl

/-- C6 (counterexample): in the graph where `p` depends on two specs both
named `a` (no-comp), one with no dependencies and one with a child, the
claim that a no-comp dependency with grandchildren remains in the list
fails: the spec with key `a2` has a non-empty dependency list yet is
filtered out (the name-based filter removes it because its same-named
sibling `a1` has none), so `p` is processed with an empty dependency
list and the enqueued work item is empty. -/
theorem c6_counterexample :
    (⟨"a", "a2"⟩ : DepSpec) ∈ reg6.getDependencies ⟨"p", "p"⟩ ∧
    (["a"] : List String).contains (DepSpec.name ⟨"a", "a2"⟩) = true ∧
    reg6.getDependencies ⟨"a", "a2"⟩ ≠ [] ∧
    (⟨"a", "a2"⟩ : DepSpec) ∉ filteredDeps reg6 ["a"] ⟨"p", "p"⟩ ∧
    (processPackage reg6 ["a"] (1/100) ⟨"p", "p"⟩ 1 stInit).2.1 = some ⟨[], 1⟩ := by
  refine ⟨by decide, by decide, by decide, by decide, ?_⟩
  norm_num +decide [processPackage, cacheFetch, fetchGrands, finishPackage, alookup,
    stInit, reg6, depTable6]

/-- C8 (counterexample): the at-most-once-per-key guarantee fails on the
program's real batch concurrency.  With duplicate top-level specifiers
`[a, a]` (duplicates are allowed inputs), both seed packages resolve to
the same canonical key `a`; in the first `Promise.all` batch every
task's cache check runs before any task's post-await cache write, so
both tasks find `a` uncached and each calls `getDependencies`: the
first-stage call list of that batch is `[a, a]`, not duplicate-free. -/
theorem c8_counterexample :
    initSpecs regOne ["a", "a"] = [⟨"a", "a"⟩, ⟨"a", "a"⟩] ∧
    concFirstStageCalls regOne stInit.cache (initSpecs regOne ["a", "a"]) = ["a", "a"] ∧
    ¬ (concFirstStageCalls regOne stInit.cache (initSpecs regOne ["a", "a"])).Nodup := by
  refine ⟨by decide, by decide, by decide⟩

/-- C8 (amended): within one invocation the dependency cache is populated
on the first fetch of each canonical key and reused for the remainder:
cache entries persist unchanged across every loop iteration; a key
already cached when a batch starts is never fetched again, even under
the concurrent batch order; and under the linearised batch order — in
particular whenever no two tasks of one batch share an uncached key —
`getDependencies` is called at most once per canonical key, the call log
of any completed run being duplicate-free and holding exactly the cached
keys.  The claim's unconditional at-most-once guarantee fails only for
several same-keyed tasks of a single `Promise.all` batch, which all miss
the cache before any of them writes it (see the counterexample). -/
theorem c8_cache_memoization_amended :
    (∀ (reg : Registry) (noComp : List String) (ε : ℚ) (st : St) (dc : Disc)
      (q : List Batch) (k : String) (ds : List DepSpec),
      alookup st.cache k = some ds →
      alookup ((stepQueue reg noComp ε (st, dc, q)).1).cache k = some ds) ∧
    (∀ (reg : Registry) (noComp : List String) (ε : ℚ) (top : List String)
      (fuel : Nat) (st' : St) (dc' : Disc),
      runQueue reg noComp ε fuel stInit Disc.zero (initQueue reg top) = some (st', dc') →
      st'.calls.Nodup ∧ ∀ k, k ∈ st'.calls ↔ (alookup st'.cache k).isSome) ∧
    (∀ (reg : Registry) (cache : List (String × List DepSpec)) (ps : List DepSpec)
      (k : String), (alookup cache k).isSome →
      k ∉ concFirstStageCalls reg cache ps) := by
  refine ⟨?_, ?_, ?_⟩
  · intro reg noComp ε st dc q k ds h
    cases q with
    | nil => exact h
    | cons b rest =>
      show alookup (processBatch reg noComp ε b.packages b.weight st).1.cache k = some ds
      exact processBatch_persist reg noComp ε b.packages b.weight st k ds h
  · intro reg noComp ε top fuel st' dc' hr
    have h0 : callsInv stInit := ⟨List.nodup_nil, fun k => by simp [stInit, alookup]⟩
    exact runQueue_callsInv reg noComp ε fuel stInit Disc.zero (initQueue reg top) st' dc' h0 hr
  · intro reg cache ps k hk hmem
    rcases List.mem_filterMap.mp hmem with ⟨s, hs, hif⟩
    by_cases h : (alookup cache s.key).isSome
    · rw [if_pos h] at hif
      exact Option.noConfusion hif
    · rw [if_neg h] at hif
      injection hif with hif
      rw [← hif] at hk
      exact h hk

/-- C8 witness: a cache entry for `x` survives a loop iteration that
fetches `a`, a completed concrete run has a duplicate-free call log, and
a key cached at batch start is not re-fetched by the concurrent first
stage. -/
theorem c8_witness :
    alookup ((stepQueue regOne [] ((1:ℚ)/2)
      (⟨[], [("x", [])], ["x"]⟩, Disc.zero, initQueue regOne ["a"])).1).cache "x" = some [] ∧
    (St.calls ⟨[("a", (1:ℚ))], [("a", [])], ["a"]⟩).Nodup ∧
    "a" ∉ concFirstStageCalls regOne [("a", [])] [⟨"a", "a"⟩] := by
  refine ⟨?_, ?_, ?_⟩
  · exact c8_cache_memoization_amended.1 regOne [] ((1:ℚ)/2) ⟨[], [("x", [])], ["x"]⟩
      Disc.zero (initQueue regOne ["a"]) "x" [] (by decide)
  · refine (c8_cache_memoization_amended.2.1 regOne [] ((1:ℚ)/2) ["a"] 3
      ⟨[("a", (1:ℚ))], [("a", [])], ["a"]⟩ Disc.zero ?_).1
    norm_num +decide [runQueue, processBatch, processPackage, cacheFetch, fetchGrands,
      finishPackage, alookup, addW, initQueue, initSpecs, initWeight, stInit,
      Disc.zero, Disc_add_def, regOne, List.filterMap]
  · exact c8_cache_memoization_amended.2.2 regOne [("a", [])] [⟨"a", "a"⟩] "a" (by decide)

/-- C1 (amended): at every point of the traversal, recorded weight plus
discarded mass plus queued mass is conserved by each loop iteration,
where discarded mass counts failed re-resolutions, no-comp epsilon
cutoffs, and the shortfall of a no-comp package whose filtered dependency
list holds fewer shares than its inherited weight (its full weight when
that list is empty); the claim's accounting, which only counts mass
discarded below epsilon, fails on that last case.  Consequently, for
every non-empty top-level list in which every specifier resolves, with an
empty no-comp set, the returned weight map sums to exactly 1. -/
theorem c1_mass_conservation_amended :
    (∀ (reg : Registry) (noComp : List String) (ε : ℚ) (s : St × Disc × List Batch),
      massAt (stepQueue reg noComp ε s) = massAt s) ∧
    (∀ (reg : Registry) (ε : ℚ) (top : List String) (fuel : Nat) (m : List (String × ℚ)),
      top ≠ [] → (∀ t, (reg.getSpec t).isSome) →
      computePackageWeight reg [] ε top fuel = some m → totalW m = 1) := by
  constructor
  · exact stepQueue_mass
  · intro reg ε top fuel m htop hres hm
    unfold computePackageWeight at hm
    rcases Option.map_eq_some'.mp hm with ⟨⟨st', dc'⟩, hr, hwm⟩
    have hdc := runQueue_disc_empty reg ε fuel stInit Disc.zero (initQueue reg top) st' dc'
      hres hr
    have hmass := runQueue_mass reg [] ε fuel stInit Disc.zero (initQueue reg top) st' dc' hr
    rw [hdc] at hmass
    have hq : queueMass (initQueue reg top) = 1 := by
      unfold queueMass initQueue batchMass
      simp only [List.map_cons, List.map_nil, List.sum_cons, List.sum_nil, add_zero]
      have hlen : (initSpecs reg top).length = top.length := by
        unfold initSpecs
        exact length_filterMap_of_isSome reg.getSpec top (fun t _ => hres t)
      have hpos : 1 ≤ top.length := List.length_pos.mpr htop
      rw [initWeight, hlen, Nat.max_eq_right hpos]
      have hne : ((top.length : ℕ) : ℚ) ≠ 0 := by
        exact_mod_cast Nat.pos_iff_ne_zero.mp hpos
      field_simp
    rw [hq, Disc_total_zero] at hmass
    have h0 : totalW stInit.weightMap = 0 := rfl
    rw [h0] at hmass
    rw [← hwm]
    linarith [hmass]

/-- C1 (counterexample): with top level `[a]`, no-comp `{a}`, `a` a leaf
and epsilon `0.01`, the claim's invariant (recorded weight plus mass
discarded below epsilon plus queued mass equals 1) holds before the first
iteration but fails after it: the whole unit of mass is neither recorded,
nor below-epsilon discarded, nor queued. -/
theorem c1_counterexample :
    (totalW stInit.weightMap + (Disc.zero.fail + Disc.zero.eps) +
      queueMass (initQueue regOne ["a"]) = 1) ∧
    totalW (stepQueue regOne ["a"] ((1:ℚ)/100)
        (stInit, Disc.zero, initQueue regOne ["a"])).1.weightMap +
      ((stepQueue regOne ["a"] ((1:ℚ)/100)
        (stInit, Disc.zero, initQueue regOne ["a"])).2.1.fail +
       (stepQueue regOne ["a"] ((1:ℚ)/100)
        (stInit, Disc.zero, initQueue regOne ["a"])).2.1.eps) +
      queueMass (stepQueue regOne ["a"] ((1:ℚ)/100)
        (stInit, Disc.zero, initQueue regOne ["a"])).2.2 ≠ 1 := by
  constructor <;>
    norm_num +decide [stepQueue, processBatch, processPackage, cacheFetch, fetchGrands,
      finishPackage, alookup, addW, initQueue, initSpecs, initWeight, stInit, Disc.zero,
      Disc_add_def, regOne, List.filterMap, queueMass, batchMass, totalW]

/-- C1 witness: a concrete fully resolving run whose weight map sums to 1. -/
theorem c1_witness : totalW [("a", (1:ℚ))] = 1 :=
  c1_mass_conservation_amended.2 regAll ((1:ℚ)/2) ["a"] 2 [("a", 1)] (by decide)
    (fun t => rfl)
    (by norm_num +decide [computePackageWeight, runQueue, processBatch, processPackage,
      cacheFetch, fetchGrands, finishPackage, alookup, addW, initQueue, initSpecs,
      initWeight, stInit, Disc.zero, Disc_add_def, regAll, List.filterMap])

/-- C4 witness: the split branch evaluated at a leaf package with weight 1
and epsilon one half. -/
theorem c4_witness :
    ((1:ℚ) / ((((filteredDeps regAll [] ⟨"a","a"⟩).length + 1) : ℕ) : ℚ) < (1:ℚ)/2 →
      alookup (processPackage regAll [] ((1:ℚ)/2) ⟨"a","a"⟩ 1 stInit).1.weightMap
        (DepSpec.name ⟨"a","a"⟩) =
        some ((alookup stInit.weightMap (DepSpec.name ⟨"a","a"⟩)).getD 0 + 1) ∧
      (processPackage regAll [] ((1:ℚ)/2) ⟨"a","a"⟩ 1 stInit).2.1 = none) ∧
    ((1:ℚ)/2 ≤ (1:ℚ) / ((((filteredDeps regAll [] ⟨"a","a"⟩).length + 1) : ℕ) : ℚ) →
      alookup (processPackage regAll [] ((1:ℚ)/2) ⟨"a","a"⟩ 1 stInit).1.weightMap
        (DepSpec.name ⟨"a","a"⟩) =
        some ((alookup stInit.weightMap (DepSpec.name ⟨"a","a"⟩)).getD 0 +
          (1:ℚ) / ((((filteredDeps regAll [] ⟨"a","a"⟩).length + 1) : ℕ) : ℚ)) ∧
      (processPackage regAll [] ((1:ℚ)/2) ⟨"a","a"⟩ 1 stInit).2.1 =
        some ⟨filteredDeps regAll [] ⟨"a","a"⟩,
          (1:ℚ) / ((((filteredDeps regAll [] ⟨"a","a"⟩).length + 1) : ℕ) : ℚ)⟩) :=
  c4_split_branch regAll [] ((1:ℚ)/2) 1 ⟨"a","a"⟩ ⟨"a","a"⟩ stInit (fun _ _ _ => rfl)
    (cacheOK_init regAll) rfl rfl

/-- C5 witness: the no-comp branch evaluated at a no-comp leaf with weight
1 and epsilon one half, and a no-comp name absent from a concrete result. -/
theorem c5_witness :
    ((processPackage regAll ["a"] ((1:ℚ)/2) ⟨"a","a"⟩ 1 stInit).1.weightMap =
        stInit.weightMap ∧
      ((1:ℚ) / ((max 1 (filteredDeps regAll ["a"] ⟨"a","a"⟩).length : ℕ) : ℚ) < (1:ℚ)/2 →
        (processPackage regAll ["a"] ((1:ℚ)/2) ⟨"a","a"⟩ 1 stInit).2.1 = none ∧
        (processPackage regAll ["a"] ((1:ℚ)/2) ⟨"a","a"⟩ 1 stInit).2.2 = ⟨0, 1, 0⟩) ∧
      ((1:ℚ)/2 ≤ (1:ℚ) / ((max 1 (filteredDeps regAll ["a"] ⟨"a","a"⟩).length : ℕ) : ℚ) →
        (processPackage regAll ["a"] ((1:ℚ)/2) ⟨"a","a"⟩ 1 stInit).2.1 =
          some ⟨filteredDeps regAll ["a"] ⟨"a","a"⟩,
            (1:ℚ) / ((max 1 (filteredDeps regAll ["a"] ⟨"a","a"⟩).length : ℕ) : ℚ)⟩)) ∧
    alookup [("a", (1:ℚ))] "b" = none := by
  constructor
  · exact c5_nocomp_branch.1 regAll ["a"] ((1:ℚ)/2) 1 ⟨"a","a"⟩ ⟨"a","a"⟩ stInit
      (fun _ _ _ => rfl) (cacheOK_init regAll) rfl (by decide)
  · exact c5_nocomp_branch.2 regAll ["b"] ((1:ℚ)/2) ["a"] 2 [("a", 1)]
      (by norm_num +decide [computePackageWeight, runQueue, processBatch, processPackage,
        cacheFetch, fetchGrands, finishPackage, alookup, addW, initQueue, initSpecs,
        initWeight, stInit, Disc.zero, Disc_add_def, regAll, List.filterMap]) "b" (by decide)

/-- C9 witness: an unresolvable spec alongside a sibling, evaluated
concretely. -/
theorem c9_witness :
    (processPackage regOne [] ((1:ℚ)/2) ⟨"b","b"⟩ 1 stInit).1 = stInit ∧
    (processPackage regOne [] ((1:ℚ)/2) ⟨"b","b"⟩ 1 stInit).2.1 = none ∧
    (processPackage regOne [] ((1:ℚ)/2) ⟨"b","b"⟩ 1 stInit).2.2 = ⟨1, 0, 0⟩ ∧
    (processBatch regOne [] ((1:ℚ)/2) (⟨"b","b"⟩ :: [⟨"a","a"⟩]) 1 stInit).1 =
      (processBatch regOne [] ((1:ℚ)/2) [⟨"a","a"⟩] 1 stInit).1 ∧
    (processBatch regOne [] ((1:ℚ)/2) (⟨"b","b"⟩ :: [⟨"a","a"⟩]) 1 stInit).2.1 =
      (processBatch regOne [] ((1:ℚ)/2) [⟨"a","a"⟩] 1 stInit).2.1 ∧
    (processBatch regOne [] ((1:ℚ)/2) (⟨"b","b"⟩ :: [⟨"a","a"⟩]) 1 stInit).2.2 =
      (⟨1, 0, 0⟩ : Disc) + (processBatch regOne [] ((1:ℚ)/2) [⟨"a","a"⟩] 1 stInit).2.2 :=
  c9_resolution_failure regOne [] ((1:ℚ)/2) ⟨"b","b"⟩ [⟨"a","a"⟩] 1 stInit (by decide)

/-- C10 witness: a leaf package receives its full inherited weight. -/
theorem c10_witness :
    alookup (processPackage regAll [] ((1:ℚ)/2) ⟨"a","a"⟩ 1 stInit).1.weightMap
      (DepSpec.name ⟨"a","a"⟩) =
      some ((alookup stInit.weightMap (DepSpec.name ⟨"a","a"⟩)).getD 0 + 1) :=
  c10_leaf_full_weight regAll [] ((1:ℚ)/2) 1 ⟨"a","a"⟩ ⟨"a","a"⟩ stInit (fun _ _ _ => rfl)
    (cacheOK_init regAll) rfl rfl rfl

/-! ## Non-termination of the no-comp self-loop -/

theorem runQueue_fixpoint_none (reg : Registry) (noComp : List String) (ε : ℚ)
    (st : St) (b : Batch) (rest : List Batch)
    (h1 : (processBatch reg noComp ε b.packages b.weight st).1 = st)
    (h2 : (processBatch reg noComp ε b.packages b.weight st).2.1.reverse ++ rest = b :: rest)
    (h3 : (processBatch reg noComp ε b.packages b.weight st).2.2 = Disc.zero) :
    ∀ (fuel : Nat) (dc : Disc), runQueue reg noComp ε fuel st dc (b :: rest) = none := by
  intro fuel
  induction fuel with
  | zero => intro dc; rfl
  | succ f ih =>
    intro dc
    show runQueue reg noComp ε f (processBatch reg noComp ε b.packages b.weight st).1
      (dc + (processBatch reg noComp ε b.packages b.weight st).2.2)
      ((processBatch reg noComp ε b.packages b.weight st).2.1.reverse ++ rest) = none
    rw [h1, h2, h3, Disc_add_zero]
    exact ih dc

/-- C3 (counterexample): with epsilon `0.01 > 0`, top level `[a]` and the
no-comp package `a` depending on itself, the traversal never terminates:
the split weight for a no-comp package with exactly one dependency equals
the inherited weight (division by `max(1,1) = 1`, not by at least 2), so
the same batch is re-enqueued forever and no amount of fuel completes the
run. -/
theorem c3_counterexample :
    (0 : ℚ) < 1/100 ∧
    ¬ ∃ (fuel : Nat) (m : List (String × ℚ)),
      computePackageWeight regLoop ["a"] (1/100) ["a"] fuel = some m := by
  constructor
  · norm_num
  · rintro ⟨fuel, m, hm⟩
    unfold computePackageWeight at hm
    rcases Option.map_eq_some'.mp hm with ⟨r, hr, _⟩
    have hq : initQueue regLoop ["a"] = [⟨[⟨"a","a"⟩], 1⟩] := by
      norm_num +decide [initQueue, initSpecs, initWeight, regLoop, List.filterMap]
    rw [hq] at hr
    cases fuel with
    | zero => exact absurd hr (by simp [runQueue])
    | succ f =>
      have hb : processBatch regLoop ["a"] ((1:ℚ)/100) [⟨"a","a"⟩] 1 stInit =
          (⟨[], [("a", [⟨"a","a"⟩])], ["a"]⟩, [⟨[⟨"a","a"⟩], 1⟩], Disc.zero) := by
        norm_num +decide [processBatch, processPackage, cacheFetch, fetchGrands,
          finishPackage, alookup, stInit, Disc.zero, Disc_add_def, regLoop]
      have hb2 : processBatch regLoop ["a"] ((1:ℚ)/100) [⟨"a","a"⟩] 1
          ⟨[], [("a", [⟨"a","a"⟩])], ["a"]⟩ =
          (⟨[], [("a", [⟨"a","a"⟩])], ["a"]⟩, [⟨[⟨"a","a"⟩], 1⟩], Disc.zero) := by
        norm_num +decide [processBatch, processPackage, cacheFetch, fetchGrands,
          finishPackage, alookup, Disc.zero, Disc_add_def, regLoop]
      have hstep : runQueue regLoop ["a"] ((1:ℚ)/100) (f + 1) stInit Disc.zero
          [⟨[⟨"a","a"⟩], 1⟩] =
          runQueue regLoop ["a"] ((1:ℚ)/100) f ⟨[], [("a", [⟨"a","a"⟩])], ["a"]⟩
            Disc.zero [⟨[⟨"a","a"⟩], 1⟩] := by
        show runQueue regLoop ["a"] ((1:ℚ)/100) f
          (processBatch regLoop ["a"] ((1:ℚ)/100) [⟨"a","a"⟩] 1 stInit).1
          (Disc.zero + (processBatch regLoop ["a"] ((1:ℚ)/100) [⟨"a","a"⟩] 1 stInit).2.2)
          ((processBatch regLoop ["a"] ((1:ℚ)/100) [⟨"a","a"⟩] 1 stInit).2.1.reverse ++ []) = _
        rw [hb]
        show runQueue regLoop ["a"] ((1:ℚ)/100) f ⟨[], [("a", [⟨"a","a"⟩])], ["a"]⟩
          (Disc.zero + Disc.zero) [⟨[⟨"a","a"⟩], 1⟩] = _
        rw [Disc_add_zero]
      rw [hstep] at hr
      have hnone := runQueue_fixpoint_none regLoop ["a"] ((1:ℚ)/100)
        ⟨[], [("a", [⟨"a","a"⟩])], ["a"]⟩ ⟨[⟨"a","a"⟩], 1⟩ []
        (by rw [show Batch.packages ⟨[⟨"a","a"⟩], 1⟩ = [⟨"a","a"⟩] from rfl,
          show Batch.weight ⟨[⟨"a","a"⟩], (1:ℚ)⟩ = 1 from rfl, hb2])
        (by rw [show Batch.packages ⟨[⟨"a","a"⟩], 1⟩ = [⟨"a","a"⟩] from rfl,
          show Batch.weight ⟨[⟨"a","a"⟩], (1:ℚ)⟩ = 1 from rfl, hb2]
            ; rfl)
        (by rw [show Batch.packages ⟨[⟨"a","a"⟩], 1⟩ = [⟨"a","a"⟩] from rfl,
          show Batch.weight ⟨[⟨"a","a"⟩], (1:ℚ)⟩ = 1 from rfl, hb2])
        f Disc.zero
      rw [hnone] at hr
      exact Option.noConfusion hr

/-! ## Termination of the amended loop -/

theorem lev_exists (ε w : ℚ) : ∃ k : ℕ, w < ε * 2 ^ k ∨ ε ≤ 0 := by
  rcases lt_or_le 0 ε with hε | hε
  · rcases pow_unbounded_of_one_lt (w / ε) (by norm_num : (1:ℚ) < 2) with ⟨k, hk⟩
    refine ⟨k, Or.inl ?_⟩
    have h2 := (div_lt_iff₀ hε).mp hk
    linarith [h2]
  · exact ⟨0, Or.inr hε⟩

/-- The level of a weight relative to epsilon: the number of times it can
be halved before dropping below epsilon (zero for non-positive epsilon). -/
def lev (ε w : ℚ) : ℕ := Nat.find (lev_exists ε w)

theorem lev_spec (ε w : ℚ) (hε : 0 < ε) : w < ε * 2 ^ lev ε w := by
  rcases Nat.find_spec (lev_exists ε w) with h | h
  · exact h
  · exact absurd h (not_le.mpr hε)

theorem lev_le (ε w : ℚ) (k : ℕ) (h : w < ε * 2 ^ k) : lev ε w ≤ k :=
  Nat.find_le (Or.inl h)

theorem lev_pos (ε w : ℚ) (hε : 0 < ε) (h : ε ≤ w) : 0 < lev ε w := by
  by_contra h0
  push_neg at h0
  have hs := lev_spec ε w hε
  rw [Nat.le_zero.mp h0] at hs
  simp only [pow_zero, mul_one] at hs
  linarith

theorem lev_mono (ε w w' : ℚ) (h : w' ≤ w) : lev ε w' ≤ lev ε w := by
  rcases Nat.find_spec (lev_exists ε w) with hs | hs
  · exact Nat.find_le (Or.inl (lt_of_le_of_lt h hs))
  · exact Nat.find_le (Or.inr hs)

theorem lev_half (ε w w' : ℚ) (hε : 0 < ε) (hpos : 0 < lev ε w) (h2 : 2 * w' ≤ w) :
    lev ε w' ≤ lev ε w - 1 := by
  apply lev_le
  have hs := lev_spec ε w hε
  have hpow : (2:ℚ) ^ lev ε w = 2 * 2 ^ (lev ε w - 1) := by
    rw [← pow_succ']
    congr 1
    omega
  rw [hpow] at hs
  nlinarith [hs]

/-- The base of the geometric measure: strictly more than one plus the
greatest possible filtered dependency count of an enqueued batch. -/
def bigC (ε : ℚ) : ℕ := ⌈(1/ε : ℚ)⌉₊ + 2

/-- Geometric measure of a batch. -/
def bMeasure (ε : ℚ) (b : Batch) : ℕ := (b.packages.length + 1) * bigC ε ^ lev ε b.weight

/-- Geometric measure of the queue. -/
def qMeasure (ε : ℚ) (q : List Batch) : ℕ := (q.map (bMeasure ε)).sum

/-- What holds of every batch enqueued by a package processed with weight
`w` at most 1: its weight is at least epsilon and at most `w`, and it is
either empty or at most half the weight with a bounded package count. -/
def pushOK (ε w : ℚ) (b : Batch) : Prop :=
  ε ≤ b.weight ∧ b.weight ≤ w ∧
    (b.packages = [] ∨ (2 * b.weight ≤ w ∧ (b.packages.length : ℚ) * ε ≤ w))

/-- All queued weights are at most 1. -/
def wtsOK (q : List Batch) : Prop := ∀ b ∈ q, b.weight ≤ 1

theorem processPackage_pushOK (reg : Registry) (noComp : List String) (ε w : ℚ)
    (pkg : DepSpec) (st : St) (hdet : keyDet reg) (hc : cacheOK reg st)
    (hH : ∀ s : DepSpec, noComp.contains s.name = true →
      (filteredDeps reg noComp s).length ≠ 1)
    (hε : 0 < ε) (b : Batch)
    (hb : (processPackage reg noComp ε pkg w st).2.1 = some b) : pushOK ε w b := by
  cases hs : reg.getSpec pkg.key with
  | none =>
    have : (processPackage reg noComp ε pkg w st).2.1 = none := by
      unfold processPackage
      rw [hs]
    rw [this] at hb
    exact Option.noConfusion hb
  | some s =>
    obtain ⟨st2, hwm, hok2, hpers, heq⟩ := processPackage_spec reg noComp ε w pkg s st hdet hc hs
    rw [heq] at hb
    unfold finishPackage at hb
    by_cases hnc : noComp.contains s.name
    · rw [if_pos hnc] at hb
      by_cases hlt : w / ((max 1 (filteredDeps reg noComp s).length : ℕ) : ℚ) < ε
      · rw [if_pos hlt] at hb
        exact Option.noConfusion hb
      · rw [if_neg hlt] at hb
        injection hb with hb
        subst hb
        have hge : ε ≤ w / ((max 1 (filteredDeps reg noComp s).length : ℕ) : ℚ) :=
          not_lt.mp hlt
        have hM1 : 1 ≤ (max 1 (filteredDeps reg noComp s).length : ℕ) := le_max_left 1 _
        have hM0 : (0:ℚ) < ((max 1 (filteredDeps reg noComp s).length : ℕ) : ℚ) := by
          exact_mod_cast Nat.lt_of_lt_of_le Nat.zero_lt_one hM1
        have hMc : (1:ℚ) ≤ ((max 1 (filteredDeps reg noComp s).length : ℕ) : ℚ) := by
          exact_mod_cast hM1
        have hw0 : 0 < w := by
          have := lt_of_lt_of_le hε hge
          have h2 := (lt_div_iff₀ hM0).mp this
          nlinarith
        refine ⟨hge, div_le_self (le_of_lt hw0) hMc, ?_⟩
        have hn1 : (filteredDeps reg noComp s).length ≠ 1 := hH s hnc
        rcases Nat.eq_zero_or_pos (filteredDeps reg noComp s).length with hn0 | hnp
        · exact Or.inl (List.length_eq_zero.mp hn0)
        · have hn2 : 2 ≤ (filteredDeps reg noComp s).length := by omega
          have hMn : (max 1 (filteredDeps reg noComp s).length : ℕ) =
              (filteredDeps reg noComp s).length := Nat.max_eq_right (by omega)
          rw [hMn]
          rw [hMn] at hge
          have hn0' : (0:ℚ) < ((filteredDeps reg noComp s).length : ℚ) := by
            exact_mod_cast Nat.lt_of_lt_of_le Nat.zero_lt_one (by omega)
          refine Or.inr ⟨?_, ?_⟩
          · show 2 * (w / ((filteredDeps reg noComp s).length : ℚ)) ≤ w
            rw [mul_div_assoc']
            rw [div_le_iff₀ hn0']
            have hc2 : (2:ℚ) ≤ ((filteredDeps reg noComp s).length : ℚ) := by
              exact_mod_cast hn2
            nlinarith
          · show (((filteredDeps reg noComp s).length : ℕ) : ℚ) * ε ≤ w
            have := (le_div_iff₀ hn0').mp hge
            linarith
    · rw [if_neg hnc] at hb
      by_cases hlt : w / ((((filteredDeps reg noComp s).length + 1) : ℕ) : ℚ) < ε
      · rw [if_pos hlt] at hb
        exact Option.noConfusion hb
      · rw [if_neg hlt] at hb
        injection hb with hb
        subst hb
        have hge : ε ≤ w / ((((filteredDeps reg noComp s).length + 1) : ℕ) : ℚ) :=
          not_lt.mp hlt
        have hM0 : (0:ℚ) < ((((filteredDeps reg noComp s).length + 1) : ℕ) : ℚ) := by
          exact_mod_cast Nat.succ_pos (filteredDeps reg noComp s).length
        have hMc : (1:ℚ) ≤ ((((filteredDeps reg noComp s).length + 1) : ℕ) : ℚ) := by
          exact_mod_cast Nat.succ_le_succ (Nat.zero_le _)
        have hw0 : 0 < w := by
          have := lt_of_lt_of_le hε hge
          have h2 := (lt_div_iff₀ hM0).mp this
          nlinarith
        refine ⟨hge, div_le_self (le_of_lt hw0) hMc, ?_⟩
        rcases Nat.eq_zero_or_pos (filteredDeps reg noComp s).length with hn0 | hnp
        · exact Or.inl (List.length_eq_zero.mp hn0)
        · right
          have hsum := (le_div_iff₀ hM0).mp hge
          push_cast at hsum
          have hn1' : (1:ℚ) ≤ ((filteredDeps reg noComp s).length : ℚ) := by
            exact_mod_cast hnp
          constructor
          · show 2 * (w / ((((filteredDeps reg noComp s).length + 1) : ℕ) : ℚ)) ≤ w
            rw [mul_div_assoc']
            rw [div_le_iff₀ hM0]
            push_cast
            nlinarith
          · push_cast
            nlinarith

theorem processBatch_pushOK (reg : Registry) (noComp : List String) (ε w : ℚ)
    (ps : List DepSpec) (hdet : keyDet reg)
    (hH : ∀ s : DepSpec, noComp.contains s.name = true →
      (filteredDeps reg noComp s).length ≠ 1)
    (hε : 0 < ε) :
    ∀ st, cacheOK reg st →
      ∀ b ∈ (processBatch reg noComp ε ps w st).2.1, pushOK ε w b := by
  induction ps with
  | nil =>
    intro st hc b hb
    exact absurd hb (by simp [processBatch])
  | cons p ps ih =>
    intro st hc b hb
    simp only [processBatch] at hb
    rw [List.mem_append] at hb
    rcases hb with hb | hb
    · have hsome : (processPackage reg noComp ε p w st).2.1 = some b := by
        cases ho : (processPackage reg noComp ε p w st).2.1 with
        | none => rw [ho] at hb; exact absurd hb (by simp)
        | some b' =>
          rw [ho] at hb
          have hbb : b = b' := by simpa using hb
          rw [hbb]
      exact processPackage_pushOK reg noComp ε w p st hdet hc hH hε b hsome
    · exact ih (processPackage reg noComp ε p w st).1
        (processPackage_cacheOK reg noComp ε p w st hdet hc) b hb

theorem processBatch_pushes_length (reg : Registry) (noComp : List String) (ε : ℚ)
    (ps : List DepSpec) (w : ℚ) (st : St) :
    (processBatch reg noComp ε ps w st).2.1.length ≤ ps.length := by
  induction ps generalizing st with
  | nil => simp [processBatch]
  | cons p ps ih =>
    simp only [processBatch, List.length_append, List.length_cons]
    have h1 : (processPackage reg noComp ε p w st).2.1.toList.length ≤ 1 := by
      cases (processPackage reg noComp ε p w st).2.1 <;> simp
    have h2 := ih (processPackage reg noComp ε p w st).1
    omega

theorem qMeasure_append (ε : ℚ) (q₁ q₂ : List Batch) :
    qMeasure ε (q₁ ++ q₂) = qMeasure ε q₁ + qMeasure ε q₂ := by
  unfold qMeasure
  rw [List.map_append, List.sum_append]

theorem qMeasure_reverse (ε : ℚ) (q : List Batch) :
    qMeasure ε q.reverse = qMeasure ε q := by
  unfold qMeasure
  rw [List.map_reverse, List.sum_reverse]

theorem qMeasure_cons (ε : ℚ) (b : Batch) (q : List Batch) :
    qMeasure ε (b :: q) = bMeasure ε b + qMeasure ε q := by
  unfold qMeasure
  rw [List.map_cons, List.sum_cons]

theorem bigC_pos (ε : ℚ) : 0 < bigC ε := by
  unfold bigC
  omega

theorem one_le_bigC_pow (ε : ℚ) (k : ℕ) : 1 ≤ bigC ε ^ k :=
  Nat.one_le_pow k (bigC ε) (bigC_pos ε)

theorem bMeasure_pos (ε : ℚ) (b : Batch) : 1 ≤ bMeasure ε b := by
  unfold bMeasure
  have := one_le_bigC_pow ε (lev ε b.weight)
  have h2 : 1 ≤ b.packages.length + 1 := by omega
  calc 1 = 1 * 1 := by omega
  _ ≤ (b.packages.length + 1) * bigC ε ^ lev ε b.weight := Nat.mul_le_mul h2 this

theorem bMeasure_le (ε w : ℚ) (hε : 0 < ε) (hw1 : w ≤ 1) (b : Batch) (hb : pushOK ε w b) :
    bMeasure ε b ≤ bigC ε ^ lev ε w := by
  obtain ⟨hεb, hbw, hcase⟩ := hb
  rcases hcase with hemp | ⟨hhalf, hcnt⟩
  · unfold bMeasure
    rw [hemp]
    simp only [List.length_nil, Nat.zero_add, one_mul]
    exact Nat.pow_le_pow_right (bigC_pos ε) (lev_mono ε w b.weight hbw)
  · have hlevpos : 0 < lev ε w := lev_pos ε w hε (le_trans hεb hbw)
    have hlev : lev ε b.weight ≤ lev ε w - 1 := lev_half ε w b.weight hε hlevpos hhalf
    have hcnt' : b.packages.length + 1 ≤ bigC ε - 1 := by
      have h1 : (b.packages.length : ℚ) ≤ 1 / ε := by
        rw [le_div_iff₀ hε]
        linarith
      have h2 : (b.packages.length : ℚ) ≤ ((⌈(1/ε : ℚ)⌉₊ : ℕ) : ℚ) :=
        le_trans h1 (Nat.le_ceil _)
      have h3 : b.packages.length ≤ ⌈(1/ε : ℚ)⌉₊ := by exact_mod_cast h2
      unfold bigC
      omega
    calc bMeasure ε b = (b.packages.length + 1) * bigC ε ^ lev ε b.weight := rfl
    _ ≤ (bigC ε - 1) * bigC ε ^ (lev ε w - 1) :=
      Nat.mul_le_mul hcnt' (Nat.pow_le_pow_right (bigC_pos ε) hlev)
    _ ≤ bigC ε * bigC ε ^ (lev ε w - 1) :=
      Nat.mul_le_mul_right _ (Nat.sub_le _ _)
    _ = bigC ε ^ (lev ε w - 1 + 1) := by
      rw [pow_succ]
      exact Nat.mul_comm _ _
    _ = bigC ε ^ lev ε w := by
      congr 1
      omega

theorem qMeasure_all_le (ε : ℚ) (l : List Batch) (M : ℕ)
    (h : ∀ b ∈ l, bMeasure ε b ≤ M) : qMeasure ε l ≤ l.length * M := by
  induction l with
  | nil => simp [qMeasure]
  | cons b l ih =>
    rw [qMeasure_cons]
    have h1 := h b (by simp)
    have h2 := ih (fun x hx => h x (by simp [hx]))
    simp only [List.length_cons]
    calc bMeasure ε b + qMeasure ε l ≤ M + l.length * M := Nat.add_le_add h1 h2
    _ = (l.length + 1) * M := by ring

theorem qMeasure_step (reg : Registry) (noComp : List String) (ε : ℚ)
    (b : Batch) (rest : List Batch) (st : St) (hdet : keyDet reg)
    (hH : ∀ s : DepSpec, noComp.contains s.name = true →
      (filteredDeps reg noComp s).length ≠ 1)
    (hε : 0 < ε) (hc : cacheOK reg st) (hw1 : b.weight ≤ 1) :
    qMeasure ε ((processBatch reg noComp ε b.packages b.weight st).2.1.reverse ++ rest) <
      qMeasure ε (b :: rest) := by
  rw [qMeasure_append, qMeasure_reverse, qMeasure_cons]
  have hall : ∀ pb ∈ (processBatch reg noComp ε b.packages b.weight st).2.1,
      bMeasure ε pb ≤ bigC ε ^ lev ε b.weight := fun pb hpb =>
    bMeasure_le ε b.weight hε hw1 pb
      (processBatch_pushOK reg noComp ε b.weight b.packages hdet hH hε st hc pb hpb)
  have h1 := qMeasure_all_le ε (processBatch reg noComp ε b.packages b.weight st).2.1
    (bigC ε ^ lev ε b.weight) hall
  have h2 := processBatch_pushes_length reg noComp ε b.packages b.weight st
  have h3 : (processBatch reg noComp ε b.packages b.weight st).2.1.length *
      bigC ε ^ lev ε b.weight ≤ b.packages.length * bigC ε ^ lev ε b.weight :=
    Nat.mul_le_mul_right _ h2
  have h4 : b.packages.length * bigC ε ^ lev ε b.weight < bMeasure ε b := by
    unfold bMeasure
    have hp := one_le_bigC_pow ε (lev ε b.weight)
    calc b.packages.length * bigC ε ^ lev ε b.weight
        < b.packages.length * bigC ε ^ lev ε b.weight + bigC ε ^ lev ε b.weight := by omega
    _ = (b.packages.length + 1) * bigC ε ^ lev ε b.weight := by ring
  have h5 : qMeasure ε (processBatch reg noComp ε b.packages b.weight st).2.1 <
      bMeasure ε b := lt_of_le_of_lt (le_trans h1 h3) h4
  omega

theorem runQueue_total (reg : Registry) (noComp : List String) (ε : ℚ)
    (hdet : keyDet reg)
    (hH : ∀ s : DepSpec, noComp.contains s.name = true →
      (filteredDeps reg noComp s).length ≠ 1)
    (hε : 0 < ε) :
    ∀ (fuel : Nat) (st : St) (dc : Disc) (q : List Batch), cacheOK reg st → wtsOK q →
      qMeasure ε q ≤ fuel → (runQueue reg noComp ε fuel st dc q).isSome := by
  intro fuel
  induction fuel with
  | zero =>
    intro st dc q hc hw hm
    cases q with
    | nil => simp [runQueue]
    | cons b rest =>
      exfalso
      have hb := bMeasure_pos ε b
      rw [qMeasure_cons] at hm
      omega
  | succ f ih =>
    intro st dc q hc hw hm
    cases q with
    | nil => simp [runQueue]
    | cons b rest =>
      show (runQueue reg noComp ε f (processBatch reg noComp ε b.packages b.weight st).1
        (dc + (processBatch reg noComp ε b.packages b.weight st).2.2)
        ((processBatch reg noComp ε b.packages b.weight st).2.1.reverse ++ rest)).isSome
      have hwb : b.weight ≤ 1 := hw b (by simp)
      apply ih
      · exact processBatch_cacheOK reg noComp ε b.packages b.weight st hdet hc
      · intro pb hpb
        rw [List.mem_append] at hpb
        rcases hpb with hpb | hpb
        · rw [List.mem_reverse] at hpb
          have hok := processBatch_pushOK reg noComp ε b.weight b.packages hdet hH hε st hc
            pb hpb
          exact le_trans hok.2.1 hwb
        · exact hw pb (by simp [hpb])
      · have hlt := qMeasure_step reg noComp ε b rest st hdet hH hε hc hwb
        omega

/-- C3 (amended): for every dependency graph in which no no-comp package
has a filtered dependency list of length exactly one (so that every
enqueued batch weight is at most half its parent's, or the batch is
empty), and every epsilon greater than zero, computePackageWeight
terminates: some finite fuel makes the loop finish.  The claim's blanket
statement fails because a no-comp package with exactly one dependency
passes its full weight through undiminished, so a cycle of such packages
loops forever (see the counterexample). -/
theorem c3_termination_amended (reg : Registry) (noComp : List String) (ε : ℚ)
    (top : List String) (hε : 0 < ε) (hdet : keyDet reg)
    (hH : ∀ s : DepSpec, noComp.contains s.name = true →
      (filteredDeps reg noComp s).length ≠ 1) :
    ∃ (fuel : Nat) (m : List (String × ℚ)),
      computePackageWeight reg noComp ε top fuel = some m := by
  refine ⟨qMeasure ε (initQueue reg top), ?_⟩
  have hq : wtsOK (initQueue reg top) := by
    intro b hb
    have hb' : b = ⟨initSpecs reg top, initWeight reg top⟩ := by
      simpa [initQueue] using hb
    rw [hb']
    show initWeight reg top ≤ 1
    unfold initWeight
    have hM1 : 1 ≤ (max 1 (initSpecs reg top).length : ℕ) := le_max_left 1 _
    have hM0 : (0:ℚ) < ((max 1 (initSpecs reg top).length : ℕ) : ℚ) := by
      exact_mod_cast Nat.lt_of_lt_of_le Nat.zero_lt_one hM1
    rw [div_le_one hM0]
    exact_mod_cast hM1
  have h := runQueue_total reg noComp ε hdet hH hε (qMeasure ε (initQueue reg top)) stInit
    Disc.zero (initQueue reg top) (cacheOK_init reg) hq (le_refl _)
  rcases Option.isSome_iff_exists.mp h with ⟨r, hr⟩
  refine ⟨r.1.weightMap, ?_⟩
  unfold computePackageWeight
  rw [hr]
  rfl

/-- C3 witness: a concrete graph and positive epsilon for which the
amended termination theorem yields a completing fuel. -/
theorem c3_witness :
    ∃ (fuel : Nat) (m : List (String × ℚ)),
      computePackageWeight regAll [] ((1:ℚ)/100) ["a"] fuel = some m :=
  c3_termination_amended regAll [] ((1:ℚ)/100) ["a"] (by norm_num) (fun _ _ _ => rfl)
    (fun s h => absurd h (by simp))
